import Mathlib

/-!
Shallow embedding of `src/main.rs` of the `version` tool.

Rust `String` / `&str` values are modelled as `List Char` (named `Str`).
Rust's `u32` fields are modelled as `Nat`; no claim involves values near
`2 ^ 32`, and the numeral parser rejects values outside `u32` range exactly
as `str::parse::<u32>` does.  Fallible operations (`unwrap` on I/O or on
parsing) are modelled with `Option`, `none` standing for the panic.
-/

abbrev Str := List Char

/-- Rust `str::split(sep)` collected to a vector: splitting the empty string
yields one empty piece, and a trailing separator yields a trailing empty
piece, exactly as in Rust. -/
def splitOnChar (sep : Char) : Str → List Str
  | [] => [[]]
  | c :: cs =>
    if c = sep then [] :: splitOnChar sep cs
    else
      match splitOnChar sep cs with
      | [] => [[c]]
      | h :: t => (c :: h) :: t

/-- Joins lines with a newline separator; used only to describe file
contents built from a list of lines in theorem statements. -/
def joinLines : List Str → Str
  | [] => []
  | [l] => l
  | l :: ls => l ++ '\n' :: joinLines ls

/-- Rust `Iterator::find` on a consuming iterator of lines: returns the
first element satisfying `p` together with the elements remaining AFTER it
(the iterator has been consumed up to and including the match), as in
`Config::parse` where `suffix` is searched only after `version`. -/
def findConsume (p : Str → Bool) : List Str → Option (Str × List Str)
  | [] => none
  | l :: ls => if p l then some (l, ls) else findConsume p ls

/-- Fuel-driven core of Rust `str::replace`: replaces non-overlapping
occurrences of `pat` left to right.  Each step consumes at least one
character of the input (for non-empty `pat`), so fuel equal to the input
length computes the full replacement; the fuel only makes the recursion
structural. -/
def replaceFuel (pat repl : Str) : Nat → Str → Str
  | _, [] => []
  | 0, s => s
  | fuel + 1, c :: cs =>
    if pat.isPrefixOf (c :: cs) then
      repl ++ replaceFuel pat repl fuel ((c :: cs).drop pat.length)
    else
      c :: replaceFuel pat repl fuel cs

/-- Rust `str::replace(pat, repl)` for a non-empty pattern (the program only
uses the patterns `"version = "` and `"suffix = "`). -/
def replaceStr (pat repl s : Str) : Str :=
  match pat with
  | [] => s
  | _ :: _ => replaceFuel pat repl s.length s

/-- True when `pat` occurs nowhere in `s` (as a contiguous sublist). -/
def noOccurB (pat : Str) : Str → Bool
  | [] => true
  | c :: cs => !pat.isPrefixOf (c :: cs) && noOccurB pat cs

/-- Decimal digit character, as produced by Rust's `Display` for `u32`. -/
def digitChar : Nat → Char
  | 0 => '0'
  | 1 => '1'
  | 2 => '2'
  | 3 => '3'
  | 4 => '4'
  | 5 => '5'
  | 6 => '6'
  | 7 => '7'
  | 8 => '8'
  | 9 => '9'
  | _ => '?'

/-- Numeric value of a decimal digit character. -/
def digitVal (c : Char) : Nat := c.toNat - 48

/-- Fuel-driven decimal rendering, most significant digit first; fuel `n`
is enough for the number `n` since the decimal length of `n` is at most
`n` for `n ≥ 1`. -/
def natToStrAux : Nat → Nat → Str
  | 0, _ => []
  | _ + 1, 0 => []
  | fuel + 1, n + 1 =>
    natToStrAux fuel ((n + 1) / 10) ++ [digitChar ((n + 1) % 10)]

/-- Decimal rendering of a natural number, as Rust's `Display` for `u32`. -/
def natToStr (n : Nat) : Str :=
  if n = 0 then ['0'] else natToStrAux n n

/-- Value of a string of decimal digits. -/
def strVal (s : Str) : Nat :=
  s.foldl (fun a c => a * 10 + digitVal c) 0

/-- Strips one leading `'+'`, as Rust's integer `FromStr` accepts an
optional leading plus sign. -/
def stripPlus : Str → Str
  | [] => []
  | c :: cs => if c = '+' then cs else c :: cs

/-- Rust `str::parse::<u32>()`: an optional `'+'` followed by one or more
decimal digits, value within `u32` range; `none` models the `Err` case
(whose `unwrap` panics). -/
def parseU32 (s : Str) : Option Nat :=
  let t := stripPlus s
  if t.isEmpty then none
  else if t.all Char.isDigit then
    if strVal t < 2 ^ 32 then some (strVal t) else none
  else none

/-- The `Version` struct; `u32` fields modelled as `Nat`. -/
structure Version where
  major : Nat
  minor : Nat
  patch : Nat
deriving DecidableEq

/-- Mirrors `Version::incr`: `patch += 1; if patch > 9 { patch = 0;
minor += 1; } if minor > 9 { minor = 0; major += 1; }` — note the second
`if` is NOT nested inside the first. -/
def Version.incr (v : Version) : Version :=
  let p1 := v.patch + 1
  let p2 := if p1 > 9 then 0 else p1
  let m1 := if p1 > 9 then v.minor + 1 else v.minor
  let m2 := if m1 > 9 then 0 else m1
  let j2 := if m1 > 9 then v.major + 1 else v.major
  ⟨j2, m2, p2⟩

/-- Mirrors `impl From<&str> for Version`: split on `'.'`, take the first
three pieces with `next().unwrap().parse().unwrap()`; pieces beyond the
third are never requested.  `none` models a panic of either `unwrap`. -/
def Version.fromStr (s : Str) : Option Version :=
  match splitOnChar '.' s with
  | a :: b :: c :: _ =>
    match parseU32 a, parseU32 b, parseU32 c with
    | some ma, some mi, some pa => some ⟨ma, mi, pa⟩
    | _, _, _ => none
  | _ => none

/-- Mirrors `impl Display for Version`: `version = {major}.{minor}.{patch}`
with no trailing newline. -/
def Version.display (v : Version) : Str :=
  "version = ".data ++ natToStr v.major ++ '.' :: natToStr v.minor
    ++ '.' :: natToStr v.patch

/-- The `Suffix` enum. -/
inductive Suffix
  | dev
  | test
  | rel
  | alpha
  | beta
deriving DecidableEq

/-- Mirrors `impl Display for Suffix`. -/
def Suffix.display : Suffix → Str
  | .dev => "dev".data
  | .test => "test".data
  | .rel => "rel".data
  | .alpha => "alpha".data
  | .beta => "beta".data

/-- The closed set of suffix labels named by the `Suffix` enum. -/
def suffixLabels : List Str :=
  [Suffix.dev.display, Suffix.test.display, Suffix.rel.display,
   Suffix.alpha.display, Suffix.beta.display]

/-- The `Config` struct: raw strings, exactly as in the source. -/
structure Config where
  suffix : Str
  version : Str
deriving DecidableEq

/-- The fallback `Config` built in `Config::parse` when a field is missing:
`Suffix::Dev.to_string()` and `"1.0.0"`. -/
def defaultConfig : Config :=
  ⟨Suffix.dev.display, "1.0.0".data⟩

/-- Mirrors `Config::parse` given the file CONTENTS: split on `'\n'`, find
the first line starting with `"version"`, then — on the remaining, already
partly consumed iterator — the first line starting with `"suffix"`; if both
are found strip the literal prefixes with `str::replace`, otherwise fall
back to `defaultConfig`.  (When the `version` search fails the iterator is
exhausted, so the `suffix` search fails too.) -/
def Config.parse (contents : Str) : Config :=
  match findConsume (fun l => "version".data.isPrefixOf l)
      (splitOnChar '\n' contents) with
  | none => defaultConfig
  | some (v, rest) =>
    match findConsume (fun l => "suffix".data.isPrefixOf l) rest with
    | none => defaultConfig
    | some (s, _) =>
      ⟨replaceStr "suffix = ".data [] s, replaceStr "version = ".data [] v⟩

/-- Reading the state file: `File::open(".vers").unwrap()` panics when the
file is missing (`none` input); otherwise the contents are parsed. -/
def loadFile : Option Str → Option Config
  | none => none
  | some contents => some (Config.parse contents)

/-- Mirrors `impl Display for Config`: `suffix = {suffix}` plus a trailing
newline. -/
def Config.display (c : Config) : Str :=
  "suffix = ".data ++ c.suffix ++ ['\n']

/-- Mirrors `Rw::write`: the file contents written are
`version.to_string() + "\n" + &self.0.to_string()`. -/
def rwWrite (c : Config) (v : Version) : Str :=
  v.display ++ '\n' :: c.display

/-- File contents serializing a state (a version and a suffix string), the
form `Rw::write` produces: `version = M.m.p\nsuffix = {suffix}\n`. -/
def serialize (v : Version) (suffix : Str) : Str :=
  v.display ++ '\n' :: ("suffix = ".data ++ suffix ++ ['\n'])

/-- The state a run observes: the parsed `Config` refined to a numeric
version paired with the suffix string (`Version::from(conf.version)`). -/
def loadState (contents : Str) : Option (Version × Str) :=
  (Version.fromStr (Config.parse contents).version).map
    (fun v => (v, (Config.parse contents).suffix))

/-- Mirrors the `Cmd::Update` arm of `main`: parse the config, parse its
version string, increment, write back through `Rw::write`; `none` models
the panic when the version numeral is malformed. -/
def update (contents : Str) : Option Str :=
  let conf := Config.parse contents
  (Version.fromStr conf.version).map (fun v => rwWrite conf v.incr)

/-- Argument list handed to the external `git` process by `fn commit`:
`["commit", "-m", msg] ++ others`, where an EMPTY `others` vector is
replaced by `["-a"]`. -/
def commitCmdArgs (msg : Str) (others : List Str) : List Str :=
  let others2 := if others.length = 0 then ["-a".data] else others
  "commit".data :: "-m".data :: msg :: others2

/-- Argument list handed to the external `git` process by `fn push`:
`["push"] ++ others`, where an EMPTY `others` vector is replaced by
`["origin", "main"]`. -/
def pushCmdArgs (others : List Str) : List Str :=
  let others2 :=
    if others.length = 0 then ["origin".data, "main".data] else others
  "push".data :: others2

/-- Mirrors the `Cmd::Commit` arm of `main`: the optional `--other` string
defaults to `""`, is split on `' '` (always yielding at least one piece),
and the pieces are passed to `fn commit`. -/
def commitDispatch (message : Str) (other : Option Str) : List Str :=
  let others :=
    match other with
    | some s => s
    | none => []
  commitCmdArgs message (splitOnChar ' ' others)

/-- Mirrors the `Cmd::Push` arm of `main`: same `--other` handling as for
`commit`, pieces passed to `fn push`. -/
def pushDispatch (other : Option Str) : List Str :=
  let others :=
    match other with
    | some s => s
    | none => []
  pushCmdArgs (splitOnChar ' ' others)

/-- Spec-side predicate, written from the spec's words for claim C6: the
string is EXACTLY three dot-separated integers (to be compared with what
`Version.fromStr` actually accepts). -/
def specExactlyThreeDotInts (s : Str) : Bool :=
  match splitOnChar '.' s with
  | [a, b, c] =>
    (parseU32 a).isSome && (parseU32 b).isSome && (parseU32 c).isSome
  | _ => false

/-- The condition `Version.fromStr` actually requires: at least three
dot-separated pieces whose FIRST THREE parse as `u32` integers. -/
def specFirstThreeInts (s : Str) : Bool :=
  match splitOnChar '.' s with
  | a :: b :: c :: _ =>
    (parseU32 a).isSome && (parseU32 b).isSome && (parseU32 c).isSome
  | _ => false

/-! ## Helper lemmas about the string primitives -/

theorem splitOnChar_no_sep (sep : Char) (s : Str) (h : sep ∉ s) :
    splitOnChar sep s = [s] := by
  induction s with
  | nil => rfl
  | cons c cs ih =>
    have hc : c ≠ sep := fun e => h (by simp [e])
    rw [splitOnChar, if_neg hc, ih (fun hm => h (List.mem_cons_of_mem _ hm))]

theorem splitOnChar_append (sep : Char) (a b : Str) (h : sep ∉ a) :
    splitOnChar sep (a ++ sep :: b) = a :: splitOnChar sep b := by
  induction a with
  | nil => simp [splitOnChar]
  | cons c cs ih =>
    have hc : c ≠ sep := fun e => h (by simp [e])
    rw [List.cons_append, splitOnChar, if_neg hc,
      ih (fun hm => h (List.mem_cons_of_mem _ hm))]

theorem splitOnChar_joinLines (L : List Str) (h : ∀ l ∈ L, '\n' ∉ l) :
    L ≠ [] → splitOnChar '\n' (joinLines L) = L := by
  induction L with
  | nil => intro hne; exact absurd rfl hne
  | cons l ls ih =>
    intro _
    cases ls with
    | nil => exact splitOnChar_no_sep _ _ (h l (by simp))
    | cons l2 ls2 =>
      rw [show joinLines (l :: l2 :: ls2) = l ++ '\n' :: joinLines (l2 :: ls2)
          from rfl,
        splitOnChar_append _ _ _ (h l (by simp)),
        ih (fun x hx => h x (List.mem_cons_of_mem _ hx)) (by simp)]

theorem isPrefixOf_append_self (p t : Str) : p.isPrefixOf (p ++ t) = true :=
  List.isPrefixOf_iff_prefix.mpr (List.prefix_append p t)

theorem isPrefixOf_cons_false (p0 : Char) (pt : Str) (c : Char) (cs : Str)
    (h : p0 ≠ c) : (p0 :: pt).isPrefixOf (c :: cs) = false := by
  simp [List.isPrefixOf, h]

theorem replaceFuel_noOccur (pat repl : Str) (fuel : Nat) (s : Str)
    (h : noOccurB pat s = true) : replaceFuel pat repl fuel s = s := by
  induction s generalizing fuel with
  | nil => cases fuel <;> rfl
  | cons c cs ih =>
    simp only [noOccurB, Bool.and_eq_true, Bool.not_eq_true'] at h
    cases fuel with
    | zero => rfl
    | succ f => rw [replaceFuel, if_neg (by simp [h.1]), ih _ h.2]

theorem noOccurB_of_head (pat s : Str) (p0 : Char) (hp : pat.head? = some p0)
    (h : ∀ c ∈ s, c ≠ p0) : noOccurB pat s = true := by
  cases pat with
  | nil => exact absurd hp (by simp)
  | cons q qt =>
    have hq : q = p0 := by simpa using hp
    subst hq
    induction s with
    | nil => rfl
    | cons c cs ih =>
      rw [noOccurB,
        isPrefixOf_cons_false _ _ _ _ (fun e => (h c (by simp)) e.symm)]
      simpa using ih (fun x hx => h x (List.mem_cons_of_mem _ hx))

theorem replaceFuel_head (pat repl : Str) (fuel : Nat) (rest : Str)
    (hne : pat ≠ []) :
    replaceFuel pat repl (fuel + 1) (pat ++ rest)
      = repl ++ replaceFuel pat repl fuel rest := by
  cases pat with
  | nil => exact absurd rfl hne
  | cons p0 pt =>
    rw [List.cons_append, replaceFuel,
      if_pos (by rw [← List.cons_append]; exact isPrefixOf_append_self _ _),
      ← List.cons_append, List.drop_left]

theorem replaceStr_strip (pat repl rest : Str) (hne : pat ≠ [])
    (h : noOccurB pat rest = true) :
    replaceStr pat repl (pat ++ rest) = repl ++ rest := by
  cases pat with
  | nil => exact absurd rfl hne
  | cons p0 pt =>
    show replaceFuel (p0 :: pt) repl ((p0 :: pt) ++ rest).length
        ((p0 :: pt) ++ rest) = repl ++ rest
    rw [show ((p0 :: pt) ++ rest).length = (pt ++ rest).length + 1 by simp,
      replaceFuel_head _ _ _ _ (by simp), replaceFuel_noOccur _ _ _ _ h]

theorem findConsume_cons_true (p : Str → Bool) (l : Str) (ls : List Str)
    (h : p l = true) : findConsume p (l :: ls) = some (l, ls) := by
  rw [findConsume, if_pos h]

theorem findConsume_append_none (p : Str → Bool) (a b : List Str)
    (h : ∀ l ∈ a, p l = false) : findConsume p (a ++ b) = findConsume p b := by
  induction a with
  | nil => rfl
  | cons l ls ih =>
    rw [List.cons_append, findConsume, if_neg (by simp [h l (by simp)]),
      ih (fun x hx => h x (List.mem_cons_of_mem _ hx))]

theorem findConsume_none (p : Str → Bool) (ls : List Str)
    (h : ∀ l ∈ ls, p l = false) : findConsume p ls = none := by
  induction ls with
  | nil => rfl
  | cons l ls2 ih =>
    rw [findConsume, if_neg (by simp [h l (by simp)]),
      ih (fun x hx => h x (List.mem_cons_of_mem _ hx))]

theorem findConsume_rest_subset (p : Str → Bool) (ls : List Str) (x : Str)
    (rest : List Str) (h : findConsume p ls = some (x, rest)) :
    ∀ y ∈ rest, y ∈ ls := by
  induction ls with
  | nil => simp [findConsume] at h
  | cons l ls2 ih =>
    rw [findConsume] at h
    by_cases hp : p l = true
    · rw [if_pos hp] at h
      obtain ⟨-, h2⟩ := Prod.mk.injEq .. ▸ Option.some.injEq .. ▸ h
      intro y hy
      exact List.mem_cons_of_mem _ (h2 ▸ hy)
    · rw [if_neg hp] at h
      intro y hy
      exact List.mem_cons_of_mem _ (ih h y hy)

/-! ## Decimal rendering and parsing round trip -/

theorem digitVal_digitChar (d : Nat) (h : d < 10) :
    digitVal (digitChar d) = d := by
  interval_cases d <;> rfl

theorem isDigit_digitChar (d : Nat) (h : d < 10) :
    (digitChar d).isDigit = true := by
  interval_cases d <;> decide

theorem natToStrAux_digits (fuel : Nat) :
    ∀ n, ∀ c ∈ natToStrAux fuel n, c.isDigit = true := by
  induction fuel with
  | zero => intro n c hc; simp [natToStrAux] at hc
  | succ f ih =>
    intro n c hc
    cases n with
    | zero => simp [natToStrAux] at hc
    | succ m =>
      rw [natToStrAux] at hc
      rcases List.mem_append.mp hc with h1 | h2
      · exact ih _ c h1
      · rw [show c = digitChar ((m + 1) % 10) by simpa using h2]
        exact isDigit_digitChar _ (Nat.mod_lt _ (by norm_num))

theorem natToStr_digits (n : Nat) : ∀ c ∈ natToStr n, c.isDigit = true := by
  intro c hc
  rw [natToStr] at hc
  by_cases h : n = 0
  · rw [if_pos h] at hc
    rw [show c = '0' by simpa using hc]
    decide
  · exact natToStrAux_digits n n c (by rwa [if_neg h] at hc)

theorem natToStr_ne_nil (n : Nat) : natToStr n ≠ [] := by
  rw [natToStr]
  by_cases h : n = 0
  · rw [if_pos h]; simp
  · rw [if_neg h]
    cases n with
    | zero => exact absurd rfl h
    | succ m => rw [natToStrAux]; simp

theorem strVal_natToStrAux (fuel : Nat) :
    ∀ n, n ≤ fuel → ∀ acc : Nat,
      List.foldl (fun a c => a * 10 + digitVal c) acc (natToStrAux fuel n)
        = acc * 10 ^ (natToStrAux fuel n).length + n := by
  induction fuel with
  | zero =>
    intro n hn acc
    interval_cases n
    simp [natToStrAux]
  | succ f ih =>
    intro n hn acc
    cases n with
    | zero => simp [natToStrAux]
    | succ m =>
      have hq : (m + 1) / 10 ≤ f :=
        Nat.le_of_lt_succ
          (Nat.lt_of_lt_of_le (Nat.div_lt_self (Nat.succ_pos m) (by norm_num)) hn)
      rw [natToStrAux, List.foldl_append, ih _ hq acc]
      have hdm : 10 * ((m + 1) / 10) + (m + 1) % 10 = m + 1 :=
        Nat.div_add_mod _ _
      rw [List.foldl_cons, List.foldl_nil,
        digitVal_digitChar _ (Nat.mod_lt _ (by norm_num)),
        List.length_append, List.length_cons, List.length_nil]
      calc (acc * 10 ^ (natToStrAux f ((m + 1) / 10)).length + (m + 1) / 10) * 10
            + (m + 1) % 10
          = acc * (10 ^ (natToStrAux f ((m + 1) / 10)).length * 10)
            + (10 * ((m + 1) / 10) + (m + 1) % 10) := by ring
        _ = acc * 10 ^ ((natToStrAux f ((m + 1) / 10)).length + (0 + 1)) + (m + 1) := by
            rw [hdm, pow_succ]
        _ = acc * 10 ^ ((natToStrAux f ((m + 1) / 10)).length + (0 + 1) : Nat) + (m + 1) := rfl

theorem strVal_natToStr (n : Nat) : strVal (natToStr n) = n := by
  by_cases h : n = 0
  · subst h; rfl
  · rw [natToStr, if_neg h, strVal, strVal_natToStrAux n n le_rfl 0]
    simp

theorem parseU32_natToStr (n : Nat) (h : n < 2 ^ 32) :
    parseU32 (natToStr n) = some n := by
  obtain ⟨c, cs, hcc⟩ : ∃ c cs, natToStr n = c :: cs := by
    cases hx : natToStr n with
    | nil => exact absurd hx (natToStr_ne_nil n)
    | cons c cs => exact ⟨c, cs, rfl⟩
  have hc : c ≠ '+' := by
    intro e
    have hd := natToStr_digits n c (by rw [hcc]; simp)
    rw [e] at hd
    exact absurd hd (by decide)
  have hstrip : stripPlus (natToStr n) = natToStr n := by
    rw [hcc, stripPlus, if_neg hc]
  have hempty : (natToStr n).isEmpty = false := by rw [hcc]; rfl
  have hall : (natToStr n).all Char.isDigit = true :=
    List.all_eq_true.mpr (natToStr_digits n)
  simp only [parseU32, hstrip, hempty, hall, Bool.false_eq_true, if_false,
    if_true, strVal_natToStr]
  rw [if_pos h]

/-! ## Claim theorems -/

/-- C4: for every version triple with minor and patch in [0,9], `incr`
increments patch when patch ≤ 8, carries into minor when patch = 9 and
minor ≤ 8, and carries into major when patch = 9 and minor = 9. -/
theorem c4_incr_cases (v : Version) (hm : v.minor ≤ 9) (hp : v.patch ≤ 9) :
    (v.patch ≤ 8 → v.incr = ⟨v.major, v.minor, v.patch + 1⟩) ∧
    (v.patch = 9 → v.minor ≤ 8 → v.incr = ⟨v.major, v.minor + 1, 0⟩) ∧
    (v.patch = 9 → v.minor = 9 → v.incr = ⟨v.major + 1, 0, 0⟩) := by
  refine ⟨fun h1 => ?_, fun h1 h2 => ?_, fun h1 h2 => ?_⟩ <;>
    simp only [Version.incr, Version.mk.injEq] <;> split_ifs <;> omega

/-- Witness for C4 at the concrete input (1, 2, 9). -/
theorem c4_incr_cases_witness : Version.incr ⟨1, 2, 9⟩ = ⟨1, 3, 0⟩ :=
  (c4_incr_cases ⟨1, 2, 9⟩ (by decide) (by decide)).2.1 rfl (by decide)

/-- C5: for every version state with minor and patch in [0,9], both fields
are again in [0,9] after `incr` (overflow is carried upward). -/
theorem c5_incr_bounds (v : Version) (hm : v.minor ≤ 9) (hp : v.patch ≤ 9) :
    v.incr.minor ≤ 9 ∧ v.incr.patch ≤ 9 := by
  simp only [Version.incr]
  split_ifs <;> omega

/-- Witness for C5 at the concrete input (3, 9, 9). -/
theorem c5_incr_bounds_witness :
    (Version.incr ⟨3, 9, 9⟩).minor ≤ 9 ∧ (Version.incr ⟨3, 9, 9⟩).patch ≤ 9 :=
  c5_incr_bounds ⟨3, 9, 9⟩ (by decide) (by decide)

/-- C10: the minor-overflow check runs unconditionally, not only after a
patch rollover: with minor > 9 and patch ≤ 8, `incr` zeroes minor and bumps
major even though patch did not roll over. -/
theorem c10_unconditional_minor_carry (v : Version) (hm : 9 < v.minor)
    (hp : v.patch ≤ 8) : v.incr = ⟨v.major + 1, 0, v.patch + 1⟩ := by
  simp only [Version.incr, Version.mk.injEq]
  split_ifs <;> omega

/-- Witness for C10 at the concrete input (1, 12, 3). -/
theorem c10_unconditional_minor_carry_witness :
    Version.incr ⟨1, 12, 3⟩ = ⟨2, 0, 4⟩ :=
  c10_unconditional_minor_carry ⟨1, 12, 3⟩ (by decide) (by decide)

/-- Counterexample to C6: the string "1.2.3.4" is NOT exactly three
dot-separated integers, yet parsing succeeds (the fourth piece is never
requested from the iterator), so parsing does not fail exactly on
non-three-piece inputs. -/
theorem c6_cex :
    Version.fromStr "1.2.3.4".data = some ⟨1, 2, 3⟩ ∧
    specExactlyThreeDotInts "1.2.3.4".data = false := by
  decide

/-- C6 as amended: parsing a version string fails fatally if and only if
the string does not have at least three dot-separated pieces whose first
three parse as u32 integers; pieces beyond the third are ignored. -/
theorem c6_amended_failure_iff (s : Str) :
    Version.fromStr s = none ↔ specFirstThreeInts s = false := by
  unfold Version.fromStr specFirstThreeInts
  rcases splitOnChar '.' s with _ | ⟨a, _ | ⟨b, _ | ⟨c, rest⟩⟩⟩
  · simp
  · simp
  · simp
  · cases hpa : parseU32 a <;> cases hpb : parseU32 b <;>
      cases hpc : parseU32 c <;> simp [hpa, hpb, hpc]

/-- Counterexample to C2: with the state file missing, `File::open` is
`unwrap`ped and the process panics; the default state is NOT returned. -/
theorem c2_cex : loadFile none ≠ some defaultConfig := by decide

/-- C2 as amended: the default state {1,0,0,dev} is returned when the file
EXISTS but lacks the recognized lines (e.g. it is empty); a missing file is
a fatal error instead. -/
theorem c2_amended_default_on_missing_fields (contents : Str)
    (h : ∀ l ∈ splitOnChar '\n' contents,
      "version".data.isPrefixOf l = false) :
    loadFile (some contents) = some defaultConfig := by
  rw [loadFile]
  rw [Config.parse, findConsume_none _ _ h]

/-- Witness for the amended C2 at the concrete empty file. -/
theorem c2_amended_witness : loadFile (some []) = some defaultConfig :=
  c2_amended_default_on_missing_fields [] (by decide)

/-- C1 evaluated on the code: with `--other` absent, `main` splits the
empty string on a space, producing one empty piece, so `fn commit` receives
a NON-empty vector `[""]` and its stage-all default is bypassed — git gets
a single empty-string argument, not "-a"; likewise `fn push` gets "" and
not "origin main".  The inner defaults exist but are unreachable from
`main`. -/
theorem c1_dispatch_empty_arg :
    commitDispatch "msg".data none
        = ["commit".data, "-m".data, "msg".data, []] ∧
    pushDispatch none = ["push".data, []] ∧
    commitCmdArgs "msg".data []
        = ["commit".data, "-m".data, "msg".data, "-a".data] ∧
    pushCmdArgs [] = ["push".data, "origin".data, "main".data] := by
  decide

/-- Counterexample to C3: a file holding both recognized lines but with the
`suffix` line BEFORE the `version` line parses to the default state, not to
{2,3,4,"rel"} — the line iterator is consumed left to right, so the
`suffix` search starts only after the matched `version` line. -/
theorem c3_cex :
    Config.parse "suffix = rel\nversion = 2.3.4".data = defaultConfig ∧
    defaultConfig ≠ ⟨"rel".data, "2.3.4".data⟩ := by
  decide

/-- C3 as amended: a file whose `version = 2.3.4` line comes BEFORE its
`suffix = rel` line parses to {2,3,4,"rel"}, for any other newline-free
lines around them, provided no earlier line starts with "version" and no
line between the two starts with "suffix". -/
theorem c3_amended_version_line_first (pre mid post : List Str)
    (hpre : ∀ l ∈ pre, "version".data.isPrefixOf l = false)
    (hmid : ∀ l ∈ mid, "suffix".data.isPrefixOf l = false)
    (hnl : ∀ l ∈ pre ++ mid ++ post, '\n' ∉ l) :
    Config.parse (joinLines
        (pre ++ "version = 2.3.4".data :: mid ++ "suffix = rel".data :: post))
      = ⟨"rel".data, "2.3.4".data⟩ := by
  have hmem : ∀ l ∈ pre ++ "version = 2.3.4".data :: mid
      ++ "suffix = rel".data :: post, '\n' ∉ l := by
    intro l hl
    rcases List.mem_append.mp hl with hleft | hs
    · rcases List.mem_append.mp hleft with hp | hvm
      · exact hnl l (List.mem_append.mpr (Or.inl
          (List.mem_append.mpr (Or.inl hp))))
      · rcases List.mem_cons.mp hvm with he | hm
        · subst he; decide
        · exact hnl l (List.mem_append.mpr (Or.inl
            (List.mem_append.mpr (Or.inr hm))))
    · rcases List.mem_cons.mp hs with he | hp2
      · subst he; decide
      · exact hnl l (List.mem_append.mpr (Or.inr hp2))
  have hsplit := splitOnChar_joinLines _ hmem (by simp)
  have h1 : findConsume (fun l => "version".data.isPrefixOf l)
      (pre ++ "version = 2.3.4".data :: mid ++ "suffix = rel".data :: post)
      = some ("version = 2.3.4".data,
          mid ++ "suffix = rel".data :: post) := by
    rw [List.append_assoc, List.cons_append,
      findConsume_append_none (fun l => "version".data.isPrefixOf l)
        _ _ hpre]
    exact findConsume_cons_true _ _ _ (by decide)
  have h2 : findConsume (fun l => "suffix".data.isPrefixOf l)
      (mid ++ "suffix = rel".data :: post)
      = some ("suffix = rel".data, post) := by
    rw [findConsume_append_none (fun l => "suffix".data.isPrefixOf l)
        _ _ hmid]
    exact findConsume_cons_true _ _ _ (by decide)
  simp only [Config.parse, hsplit, h1, h2]
  decide

/-- Witness for the amended C3 with one unrecognized line in each region. -/
theorem c3_amended_witness :
    Config.parse (joinLines (["# a note".data]
        ++ "version = 2.3.4".data :: ["spam".data]
        ++ "suffix = rel".data :: ["trailing".data]))
      = ⟨"rel".data, "2.3.4".data⟩ :=
  c3_amended_version_line_first ["# a note".data] ["spam".data]
    ["trailing".data] (by decide) (by decide) (by decide)

/-- Counterexample to C9: `Config::parse` copies the text after
"suffix = " verbatim, so a state file can load a suffix outside the closed
set dev/test/rel/alpha/beta. -/
theorem c9_cex :
    (Config.parse "version = 1.0.0\nsuffix = banana".data).suffix
      ∉ suffixLabels := by
  decide

/-- C9 as amended: `load` does not validate the suffix against the closed
set; only the fallback suffix (used when a recognized line is missing) is
"dev", a member of the set — any text in the file is returned verbatim. -/
theorem c9_amended_no_validation :
    (∀ contents, (∀ l ∈ splitOnChar '\n' contents,
        "suffix".data.isPrefixOf l = false) →
      (Config.parse contents).suffix ∈ suffixLabels) ∧
    (Config.parse "version = 1.0.0\nsuffix = banana".data).suffix
      = "banana".data := by
  constructor
  · intro contents h
    rcases hv : findConsume (fun l => "version".data.isPrefixOf l)
        (splitOnChar '\n' contents) with _ | ⟨v, rest⟩
    · rw [Config.parse, hv]; decide
    · have h2 : findConsume (fun l => "suffix".data.isPrefixOf l) rest
          = none :=
        findConsume_none _ _ (fun l hl =>
          h l (findConsume_rest_subset _ _ _ _ hv l hl))
      rw [Config.parse, hv]
      simp only [h2]
      decide
  · decide

/-- Witness for the amended C9 at the concrete empty file. -/
theorem c9_amended_witness : (Config.parse []).suffix ∈ suffixLabels :=
  c9_amended_no_validation.1 [] (by decide)

/-- C8: `update` writes back the incremented version together with the very
suffix that was loaded (the suffix line is produced from the loaded
`Config`), shown end-to-end on the spec's example file and in general for
every successfully loaded state. -/
theorem c8_update_frame :
    update "version = 1.2.9\nsuffix = dev\n".data
        = some "version = 1.3.0\nsuffix = dev\n".data ∧
    ∀ contents v,
      Version.fromStr (Config.parse contents).version = some v →
      update contents
        = some ((Version.incr v).display
            ++ '\n' :: ("suffix = ".data
              ++ (Config.parse contents).suffix ++ ['\n'])) := by
  refine ⟨by decide, fun contents v h => ?_⟩
  simp only [update, rwWrite, Config.display, h, Option.map_some']

/-- Witness for C8's general part at a concrete loaded state. -/
theorem c8_update_frame_witness :
    update "version = 0.0.1\nsuffix = beta\n".data
      = some ((Version.incr ⟨0, 0, 1⟩).display
          ++ '\n' :: ("suffix = ".data
            ++ (Config.parse "version = 0.0.1\nsuffix = beta\n".data).suffix
            ++ ['\n'])) :=
  c8_update_frame.2 _ ⟨0, 0, 1⟩ (by decide)

/-- A character that is not a decimal digit cannot occur in a string of
digits. -/
theorem not_mem_of_digits (c : Char) (s : Str)
    (hall : ∀ x ∈ s, x.isDigit = true) (hc : c.isDigit = false) : c ∉ s :=
  fun hx => absurd (hall c hx) (by simp [hc])

/-- C7: serializing a well-formed state (u32-range version fields, suffix
from the closed label set), loading it back, and serializing again
reproduces the serialized output exactly. -/
theorem c7_roundtrip (v : Version) (suffix : Str)
    (hM : v.major < 2 ^ 32) (hm : v.minor < 2 ^ 32) (hp : v.patch < 2 ^ 32)
    (hs : suffix ∈ suffixLabels) :
    (loadState (serialize v suffix)).map (fun p => serialize p.1 p.2)
      = some (serialize v suffix) := by
  have hsfacts : '\n' ∉ suffix ∧ noOccurB "suffix = ".data suffix = true := by
    simp only [suffixLabels, Suffix.display, List.mem_cons,
      List.not_mem_nil, or_false] at hs
    rcases hs with h | h | h | h | h <;> subst h <;> exact ⟨by decide, by decide⟩
  have hAdot : '.' ∉ natToStr v.major :=
    not_mem_of_digits _ _ (natToStr_digits _) (by decide)
  have hBdot : '.' ∉ natToStr v.minor :=
    not_mem_of_digits _ _ (natToStr_digits _) (by decide)
  have hCdot : '.' ∉ natToStr v.patch :=
    not_mem_of_digits _ _ (natToStr_digits _) (by decide)
  have hvl : '\n' ∉ Version.display v := by
    intro hx
    rw [Version.display] at hx
    rcases List.mem_append.mp hx with h1 | h2
    · rcases List.mem_append.mp h1 with h11 | h12
      · rcases List.mem_append.mp h11 with h111 | h112
        · exact absurd h111 (by decide)
        · exact not_mem_of_digits _ _ (natToStr_digits _) (by decide) h112
      · rcases List.mem_cons.mp h12 with he | hB2
        · exact absurd he (by decide)
        · exact not_mem_of_digits _ _ (natToStr_digits _) (by decide) hB2
    · rcases List.mem_cons.mp h2 with he | hC2
      · exact absurd he (by decide)
      · exact not_mem_of_digits _ _ (natToStr_digits _) (by decide) hC2
  have hsline_nl : '\n' ∉ "suffix = ".data ++ suffix := by
    intro hx
    rcases List.mem_append.mp hx with h1 | h2
    · exact absurd h1 (by decide)
    · exact hsfacts.1 h2
  have hsplit2 : splitOnChar '\n' (serialize v suffix)
      = [Version.display v, "suffix = ".data ++ suffix, []] := by
    rw [serialize, splitOnChar_append _ _ _ hvl,
      splitOnChar_append _ _ _ hsline_nl]
    rfl
  have hpre1 : "version".data.isPrefixOf (Version.display v) = true := by
    apply List.isPrefixOf_iff_prefix.mpr
    rw [Version.display]
    exact (((by decide : "version".data <+: "version = ".data).trans
      (List.prefix_append _ _)).trans (List.prefix_append _ _)).trans
      (List.prefix_append _ _)
  have hpre2 : "suffix".data.isPrefixOf ("suffix = ".data ++ suffix)
      = true := by
    apply List.isPrefixOf_iff_prefix.mpr
    exact (by decide : "suffix".data <+: "suffix = ".data).trans
      (List.prefix_append _ _)
  have hfind1 : findConsume (fun l => "version".data.isPrefixOf l)
      [Version.display v, "suffix = ".data ++ suffix, []]
      = some (Version.display v, ["suffix = ".data ++ suffix, []]) :=
    findConsume_cons_true _ _ _ hpre1
  have hfind2 : findConsume (fun l => "suffix".data.isPrefixOf l)
      ["suffix = ".data ++ suffix, []]
      = some ("suffix = ".data ++ suffix, [[]]) :=
    findConsume_cons_true _ _ _ hpre2
  have hshape : Version.display v
      = "version = ".data ++ (natToStr v.major
        ++ '.' :: (natToStr v.minor ++ '.' :: natToStr v.patch)) := by
    rw [Version.display]
    simp [List.append_assoc]
  have hvno : noOccurB "version = ".data
      (natToStr v.major ++ '.' :: (natToStr v.minor
        ++ '.' :: natToStr v.patch)) = true := by
    apply noOccurB_of_head "version = ".data _ 'v' (by decide)
    intro c hc
    rcases List.mem_append.mp hc with h1 | h2
    · intro e
      have := natToStr_digits v.major c h1
      rw [e] at this
      exact absurd this (by decide)
    · rcases List.mem_cons.mp h2 with he | h3
      · subst he; decide
      · rcases List.mem_append.mp h3 with h4 | h5
        · intro e
          have := natToStr_digits v.minor c h4
          rw [e] at this
          exact absurd this (by decide)
        · rcases List.mem_cons.mp h5 with he2 | h6
          · subst he2; decide
          · intro e
            have := natToStr_digits v.patch c h6
            rw [e] at this
            exact absurd this (by decide)
  have hrepl1 : replaceStr "version = ".data [] (Version.display v)
      = natToStr v.major ++ '.' :: (natToStr v.minor
        ++ '.' :: natToStr v.patch) := by
    rw [hshape, replaceStr_strip _ _ _ (by decide) hvno]
    exact List.nil_append _
  have hrepl2 : replaceStr "suffix = ".data []
      ("suffix = ".data ++ suffix) = suffix := by
    rw [replaceStr_strip _ _ _ (by decide) hsfacts.2]
    exact List.nil_append _
  have hparse : Config.parse (serialize v suffix)
      = ⟨suffix, natToStr v.major ++ '.' :: (natToStr v.minor
          ++ '.' :: natToStr v.patch)⟩ := by
    simp only [Config.parse, hsplit2, hfind1, hfind2, hrepl1, hrepl2]
  have hdots : splitOnChar '.'
      (natToStr v.major ++ '.' :: (natToStr v.minor
        ++ '.' :: natToStr v.patch))
      = [natToStr v.major, natToStr v.minor, natToStr v.patch] := by
    rw [splitOnChar_append _ _ _ hAdot, splitOnChar_append _ _ _ hBdot,
      splitOnChar_no_sep _ _ hCdot]
  have hfrom : Version.fromStr
      (natToStr v.major ++ '.' :: (natToStr v.minor
        ++ '.' :: natToStr v.patch)) = some v := by
    simp only [Version.fromStr, hdots, parseU32_natToStr _ hM,
      parseU32_natToStr _ hm, parseU32_natToStr _ hp]
  simp only [loadState, hparse, hfrom, Option.map_some']

/-- Witness for C7 at the concrete state (1, 2, 3) with suffix "dev". -/
theorem c7_roundtrip_witness :
    (loadState (serialize ⟨1, 2, 3⟩ "dev".data)).map
        (fun p => serialize p.1 p.2)
      = some (serialize ⟨1, 2, 3⟩ "dev".data) :=
  c7_roundtrip ⟨1, 2, 3⟩ "dev".data (by decide) (by decide) (by decide)
    (by decide)
